import Mathlib

/-
Verification development for the rete-reasoner driver (src/index.ts).

The driver layers a justification-based TMS, a cycle driver with pluggable
conflict-resolution strategies, and a fuzzy layer on top of an external
matcher (rete-next).  The embedding below models JS object identity for
WMEs by a heap of allocation indices: the working memory and the
justification store hold heap indices, so mutating a WME's membership
degree in place does not disturb identity, exactly as in the source.
The matcher itself is external to the repository; its addWMEsFromConditions
contract (returns newly interned WMEs and already-live WMEs as two disjoint
lists) is modelled after the contract the driver relies on.
-/

/-- A working-memory element: the three string fields of the src WME plus
the membership degree carried by a FuzzyWME (none for a crisp WME). -/
structure WMEData where
  f0 : String
  f1 : String
  f2 : String
  mu : Option ℚ
deriving DecidableEq

/-- Default WMEData used for out-of-range heap reads (never reached by the
operations on well-formed states). -/
def dfltWME : WMEData := ⟨"", "", "", none⟩

/-- A matcher token: an identity tag plus the heap indices of its member
WMEs.  The src holds tokens by reference identity; the tag models that. -/
structure Token where
  tid : Nat
  members : List Nat
deriving DecidableEq

/-- src Justification = ProductionJustification | AxiomaticJustification
(index.ts lines 26-33). -/
inductive Justif where
  | axiomatic : Justif
  | prod (rhs : String) (token : Token) : Justif
deriving DecidableEq

/-- src WMEJustification record (index.ts lines 46-49). -/
structure WMERecord where
  wme : Nat
  justifications : List Justif
deriving DecidableEq

/-- The reasoner state: the heap of allocated WME objects, the matcher's
working memory (rete.working_memory) and the justification store. -/
structure Store where
  heap : List WMEData
  wm : List Nat
  justifications : List WMERecord
deriving DecidableEq

def emptyStore : Store := ⟨[], [], []⟩

/-- The two src FuzzySystem implementations (index.ts lines 114-131). -/
inductive FuzzySystem where
  | minMax : FuzzySystem
  | multiplicative : FuzzySystem
deriving DecidableEq

/-- computeConjunction.  JS Math.min over an empty spread is +Infinity;
that case is unreachable in the program (tokenToMu guards on a non-empty
list) and is mapped to 0 here. -/
def FuzzySystem.computeConjunction : FuzzySystem → List ℚ → ℚ
  | .minMax, [] => 0
  | .minMax, x :: xs => xs.foldl min x
  | .multiplicative, l => l.foldl (· * ·) 1

/-- computeDisjunction.  The multiplicative case returns 0 in the source
(index.ts line 129), whose own comment says it should be the
inclusion-exclusion value. -/
def FuzzySystem.computeDisjunction : FuzzySystem → List ℚ → ℚ
  | .minMax, [] => 0
  | .minMax, x :: xs => xs.foldl max x
  | .multiplicative, _ => 0

/-- src tokenToMu (index.ts lines 469-475): collect the membership degrees
of the token's FuzzyWME members; if there is at least one and a fuzzy
system has been selected, return their conjunction, else undefined. -/
def tokenToMu (fsys : Option FuzzySystem) (s : Store) (t : Token) : Option ℚ :=
  let mus := t.members.filterMap fun uid => (s.heap.getD uid dfltWME).mu
  match fsys with
  | some sys => if mus.isEmpty then none else some (sys.computeConjunction mus)
  | none => none

/-- Field equality used by the matcher model to intern WMEs. -/
def sameFields (d c : WMEData) : Bool :=
  d.f0 == c.f0 && d.f1 == c.f1 && d.f2 == c.f2

/-- Model of rete-next addWMEsFromConditions per the contract the driver
relies on (spec section 9): each candidate already present in working
memory is reported as existing; the rest are interned as fresh WMEs and
reported as added.  Returns (new store, added, existing). -/
def addWMEs (s : Store) : List WMEData → Store × List Nat × List Nat
  | [] => (s, [], [])
  | c :: rest =>
    match s.wm.find? (fun uid => sameFields (s.heap.getD uid dfltWME) c) with
    | some uid =>
      ((addWMEs s rest).1, (addWMEs s rest).2.1, uid :: (addWMEs s rest).2.2)
    | none =>
      (let s1 : Store := { s with heap := s.heap ++ [c], wm := s.wm ++ [s.heap.length] }
       ((addWMEs s1 rest).1, s.heap.length :: (addWMEs s1 rest).2.1, (addWMEs s1 rest).2.2))

/-- src parseAndExecute, assert branch (index.ts lines 259-266): add the
WMEs; each newly added WME gets a record with one axiomatic justification;
WMEs reported as existing are not touched. -/
def assertFact (s : Store) (cands : List WMEData) : Store :=
  { (addWMEs s cands).1 with
    justifications := (addWMEs s cands).1.justifications ++
      ((addWMEs s cands).2.1).map fun uid => ⟨uid, [Justif.axiomatic]⟩ }

def Justif.isProd : Justif → Bool
  | .prod _ _ => true
  | .axiomatic => false

/-- jj.prod === production.rhs && jj.token === token (index.ts line 497). -/
def Justif.matchesPT (rhs : String) (t : Token) : Justif → Bool
  | .prod p tok => p == rhs && tok == t
  | .axiomatic => false

/-- jj.prod === production.rhs && jj.token !== token: the predicate the
withdrawal loop KEEPS (index.ts line 502). -/
def Justif.keptByWithdrawal (rhs : String) (t : Token) : Justif → Bool
  | .prod p tok => p == rhs && !(tok == t)
  | .axiomatic => false

/-- Does the record hold a production-derived justification (rhs, t)
(index.ts lines 494-497)? -/
def recordHolds (rhs : String) (t : Token) (r : WMERecord) : Bool :=
  ((r.justifications.filter Justif.isProd).find? (Justif.matchesPT rhs t)).isSome

/-- The new justification list of an affected record (index.ts lines
499-502): restrict to production justifications, then keep the same-rule
different-token ones. -/
def withdrawTokenJustifications (rhs : String) (t : Token) (js : List Justif) : List Justif :=
  (js.filter Justif.isProd).filter (Justif.keptByWithdrawal rhs t)

/-- One iteration of "for (const token of tokensToRemove)" (index.ts lines
493-508): every record holding (rhs, t) gets the filtered justification
list, and the WMEs of records whose list became empty are removed from the
matcher's working memory. -/
def processToken (rhs : String) (t : Token) (s : Store) : Store :=
  { heap := s.heap
    wm := (((s.justifications.filter fun r =>
        recordHolds rhs t r &&
          (withdrawTokenJustifications rhs t r.justifications).isEmpty).map
            (·.wme)).foldl List.erase s.wm)
    justifications := s.justifications.map fun r =>
      if recordHolds rhs t r then
        { r with justifications := withdrawTokenJustifications rhs t r.justifications }
      else r }

/-- Update the first list element satisfying p (JS Array.find followed by
in-place mutation of the found object). -/
def updateFirst (p : α → Bool) (f : α → α) : List α → List α
  | [] => []
  | x :: xs => if p x then f x :: xs else x :: updateFirst p f xs

/-- src run(), existing-WME branch of the assert phase (index.ts lines
528-547): push the production justification onto the record of the
existing WME; when a fuzzy system is selected and the WME is fuzzy,
recompute its degree as the disjunction of the token degrees of all its
production justifications. -/
def pushExistingJustification (fsys : Option FuzzySystem) (rhs : String) (t : Token)
    (s : Store) (uid : Nat) : Store :=
  match s.justifications.find? (fun r => r.wme == uid) with
  | none => s
  | some r =>
    let newJusts := r.justifications ++ [Justif.prod rhs t]
    let s1 : Store := { s with
      justifications := updateFirst (fun rr => rr.wme == uid)
        (fun rr => { rr with justifications := rr.justifications ++ [Justif.prod rhs t] })
        s.justifications }
    match fsys, (s.heap.getD uid dfltWME).mu with
    | some sys, some _ =>
      let mus := (newJusts.filter Justif.isProd).filterMap fun jj =>
        match jj with
        | .prod _ tok => tokenToMu fsys s1 tok
        | .axiomatic => none
      let updated : WMEData :=
        { s1.heap.getD uid dfltWME with mu := some (sys.computeDisjunction mus) }
      { s1 with heap := s1.heap.set uid updated }
    | _, _ => s1

/-- Candidate WME obtained by materializing one RHS condition under a
token binding; fuzzy records whether the matcher would intern it as a
FuzzyWME carrying the token's membership degree. -/
structure CandSpec where
  f0 : String
  f1 : String
  f2 : String
  fuzzy : Bool
deriving DecidableEq

/-- src run(), body for one token of tokensToAdd (index.ts lines 511-548). -/
def assertForToken (fsys : Option FuzzySystem) (rhs : String) (t : Token)
    (cands : List CandSpec) (s : Store) : Store :=
  let mu := tokenToMu fsys s t
  let realized := cands.map fun c => WMEData.mk c.f0 c.f1 c.f2 (if c.fuzzy then mu else none)
  let s2 : Store := { (addWMEs s realized).1 with
    justifications := (addWMEs s realized).1.justifications ++
      ((addWMEs s realized).2.1).map fun uid => ⟨uid, [Justif.prod rhs t]⟩ }
  ((addWMEs s realized).2.2).foldl (pushExistingJustification fsys rhs t) s2

/-- The data the matcher and the resolver contribute to one executed
cycle: the selected production's rhs, the willFire token deltas, the
materialized RHS candidates per token to add, and whether the production
has an rhsAssert. -/
structure FireInput where
  rhs : String
  toRemove : List Token
  toAdd : List (Token × List CandSpec)
  hasAssert : Bool

/-- One cycle body of src run() (index.ts lines 490-549) once an item has
been selected: withdraw tokens, prune empty records, then assert. -/
def cycleBody (fsys : Option FuzzySystem) (inp : FireInput) (s : Store) : Store :=
  let s1 := inp.toRemove.foldl (fun s t => processToken inp.rhs t s) s
  let s2 : Store := { s1 with
    justifications := s1.justifications.filter fun r => !r.justifications.isEmpty }
  if inp.hasAssert then
    inp.toAdd.foldl (fun s tc => assertForToken fsys inp.rhs tc.1 tc.2 s) s2
  else s2

/-- src MAX_CYCLES (index.ts line 1063). -/
def MAX_CYCLES : Nat := 100

/-- The do/while loop of src run() (index.ts lines 477-551).  oracle n
abstracts findConflictSet plus the selected resolution strategy at cycle
n: none when the conflict set is empty or the strategy selects nothing.
fuel equals MAX_CYCLES + 1 - cycle, so the post-test cycle++ <= MAX_CYCLES
is fuel > 0.  Returns the final store and the number of executions of the
loop body. -/
def runAux (fsys : Option FuzzySystem) (oracle : Nat → Option FireInput) :
    Nat → Nat → Store → Store × Nat
  | fuel, cyc, s =>
    match oracle cyc with
    | none => (s, 1)
    | some inp =>
      match fuel with
      | 0 => (cycleBody fsys inp s, 1)
      | f + 1 =>
        ((runAux fsys oracle f (cyc + 1) (cycleBody fsys inp s)).1,
         (runAux fsys oracle f (cyc + 1) (cycleBody fsys inp s)).2 + 1)

/-- src run() entered with the global cycle counter at cyc. -/
def runDriver (fsys : Option FuzzySystem) (oracle : Nat → Option FireInput)
    (cyc : Nat) (s : Store) : Store × Nat :=
  runAux fsys oracle (MAX_CYCLES + 1 - cyc) cyc s

/-- The WM lookup predicate of src interactiveRetract (index.ts line 668). -/
def wmeFieldsMatch (s : Store) (q0 q1 q2 : String) (uid : Nat) : Bool :=
  (s.heap.getD uid dfltWME).f0 == q0 &&
  (s.heap.getD uid dfltWME).f1 == q1 &&
  (s.heap.getD uid dfltWME).f2 == q2

/-- src interactiveRetract (index.ts lines 665-689) for a well-formed
three-part command; returns the new state and whether run() was invoked.
The warn-and-return paths leave the state untouched. -/
def interactiveRetract (fsys : Option FuzzySystem) (oracle : Nat → Option FireInput)
    (cyc : Nat) (s : Store) (q0 q1 q2 : String) : Store × Bool :=
  match s.wm.find? (wmeFieldsMatch s q0 q1 q2) with
  | none => (s, false)
  | some uid =>
    match s.justifications.find? (fun r => r.wme == uid) with
    | none => (s, false)
    | some r =>
      match r.justifications.find? (fun jj => !jj.isProd) with
      | none => (s, false)
      | some aj =>
        if (r.justifications.erase aj).isEmpty then
          let s1 : Store :=
            { s with wm := s.wm.erase uid, justifications := s.justifications.erase r }
          ((runDriver fsys oracle cyc s1).1, true)
        else
          let newRecs := updateFirst (fun rr => rr.wme == uid)
            (fun rr => { rr with justifications := r.justifications.erase aj })
            s.justifications
          let s1 : Store := { s with justifications := newRecs }
          ((runDriver fsys oracle cyc s1).1, true)

/-- A conflict item, reduced to what the resolution strategies inspect:
the production's rhs; cid keeps distinct items distinct. -/
structure CItem where
  rhs : String
  cid : Nat
deriving DecidableEq

/-- src firstMatchConflictResolution (index.ts lines 414-416). -/
def firstMatchConflictResolution (conflicts : List CItem) : Option CItem :=
  conflicts.head?

/-- src line 1062: the stratum cursor starts at 0. -/
def currentStratumInit : Nat := 0

/-- Does the conflict item's production belong to stratum i (by rhs name,
as the source tests with productionRhses.includes)? -/
def stratumHit (strata : List (List String)) (i : Nat) (c : CItem) : Bool :=
  (strata.getD i []).contains c.rhs

/-- src stratifiedManual (index.ts lines 418-428) as a function of the
cursor; strata holds the production rhs names per stratum.  fuel drives
the do/while; the wrapper below passes strata.length - s, which the loop
never exhausts early, so the fuel-0 exit coincides with the while exit. -/
def stratifiedManualAux (strata : List (List String)) (conflicts : List CItem) :
    Nat → Nat → Option CItem × Nat
  | 0, s =>
    match conflicts.find? (stratumHit strata s) with
    | some c => (some c, s)
    | none => (none, s + 1)
  | f + 1, s =>
    match conflicts.find? (stratumHit strata s) with
    | some c => (some c, s)
    | none =>
      if s + 1 < strata.length then stratifiedManualAux strata conflicts f (s + 1)
      else (none, s + 1)

/-- src stratifiedManual entered with the cursor at s; returns the
selected item (if any) and the cursor after the call. -/
def stratifiedManual (strata : List (List String)) (conflicts : List CItem)
    (s : Nat) : Option CItem × Nat :=
  stratifiedManualAux strata conflicts (strata.length - s) s

/-- src PatternsForAttribute (index.ts lines 57-61). -/
structure PatternsForAttribute where
  id : Option String
  val : Option String
  description : Option String
deriving DecidableEq

/-- src tryMatchPatternInWME (index.ts lines 167-184); a JS-falsy pattern
field (absent or the empty string) imposes no constraint. -/
def tryMatchPatternInWME (w : WMEData) (pats : List PatternsForAttribute) : Bool :=
  pats.any fun p =>
    (if p.id.getD "" == "" then true else p.id.getD "" == w.f0) &&
    (if p.val.getD "" == "" then true else p.val.getD "" == w.f2)

/-- src fuzzyDirectiveHandling, attr branch (index.ts lines 384-386): the
processed directive payload is pushed onto fuzzyAttrs. -/
def registerFuzzyAttr (fuzzyAttrs : List String) (v : String) : List String :=
  fuzzyAttrs ++ [v]

/-- src checkWMEAgainstSchema (index.ts lines 206-220), returning the list
of warnings it emits. -/
def checkWMEAgainstSchema (fuzzyAttrs : List String)
    (patternsForAttributes : List (String × List PatternsForAttribute))
    (w : WMEData) : List String :=
  if fuzzyAttrs.contains w.f1 then []
  else
    match patternsForAttributes.find? (fun pa => pa.1 == w.f1) with
    | none => ["No schema registered for attribute " ++ w.f1]
    | some pa =>
      if tryMatchPatternInWME w pa.2 then [] else ["No schema pattern matches WME"]

/-- src FuzzyValDefinition (index.ts lines 63-67). -/
structure FuzzyValDefinition where
  name : String
  a : ℝ
  c : ℝ

/-- src FuzzyVariableKind (index.ts lines 69-72). -/
structure FuzzyVariableKind where
  name : String
  definitions : List FuzzyValDefinition

/-- src sigmoid (index.ts lines 74-76). -/
noncomputable def sigmoid (a c val : ℝ) : ℝ :=
  1 / (1 + Real.exp (-a * (val - c)))

/-- src DeclaredFuzzyVariable (index.ts lines 78-105). -/
structure DeclaredFuzzyVariable where
  name : String
  fuzzyVariableKind : FuzzyVariableKind

def DeclaredFuzzyVariable.getFuzzyValue (v : DeclaredFuzzyVariable)
    (fuzzyValue : String) : Option FuzzyValDefinition :=
  v.fuzzyVariableKind.definitions.find? fun x => x.name == fuzzyValue

noncomputable def DeclaredFuzzyVariable.computeMembershipValueForFuzzyValue
    (v : DeclaredFuzzyVariable) (fuzzyValue : String) (val : ℝ) : ℝ :=
  match v.getFuzzyValue fuzzyValue with
  | some d => sigmoid d.a d.c val
  | none => 0

/-- src index.ts lines 94-96: the inverse computation is a stub that
returns 0 for every input. -/
def DeclaredFuzzyVariable.computeValueForFuzzyMembershipValue
    (_v : DeclaredFuzzyVariable) (_fuzzyValue : String) (_mu : ℝ) : ℝ :=
  0

/-- Modelled from the spec: the inverse of the sigmoid membership
function, x = c - ln(1/mu - 1)/a (spec section 3, Fuzzy Variable Kind).
The src computeValueForFuzzyMembershipValue stub does not implement it;
this definition exists only to compare the code against the claim. -/
noncomputable def specInverseSigmoid (a c mu : ℝ) : ℝ :=
  c - Real.log (1 / mu - 1) / a

/-- Modelled from the spec: the defuzzified crisp value for a two-sigmoid
kind, the mean of the two inverse-sigmoid contributions (spec section
4.5); absent from the source. -/
noncomputable def specCrispValue (d1 d2 : FuzzyValDefinition) (mu1 mu2 : ℝ) : ℝ :=
  (specInverseSigmoid d1.a d1.c mu1 + specInverseSigmoid d2.a d2.c mu2) / 2

/-- The TMS invariant (spec section 3, WME-Justification Record): a record
exists for a WME iff the WME is in working memory, every record is
non-empty, working memory and record keys are duplicate-free, and working
memory holds valid heap addresses. -/
def InvStore (s : Store) : Prop :=
  (∀ uid : Nat, uid ∈ s.wm ↔ ∃ r ∈ s.justifications, r.wme = uid) ∧
  (∀ r ∈ s.justifications, r.justifications ≠ []) ∧
  s.wm.Nodup ∧
  (s.justifications.map (·.wme)).Nodup ∧
  (∀ uid ∈ s.wm, uid < s.heap.length)

/-- The invariant as it holds in the middle of a cycle, before empty
records are pruned: a WME is in working memory iff its record is
non-empty. -/
def MidInv (s : Store) : Prop :=
  (∀ uid : Nat, uid ∈ s.wm ↔ ∃ r ∈ s.justifications, r.wme = uid ∧ r.justifications ≠ []) ∧
  s.wm.Nodup ∧
  (s.justifications.map (·.wme)).Nodup ∧
  (∀ uid ∈ s.wm, uid < s.heap.length)

/-- C1: when the cycle driver removes token t for the selected production,
the source is claimed to delete exactly the justification (rule, t) and
keep all others.  Evaluating the embedded withdrawal filter (index.ts
lines 493-508) on a record holding an axiomatic justification, a
different-rule justification and a same-rule different-token justification
shows that only the same-rule different-token one survives, and a record
holding an axiomatic justification beside (R, t1) is emptied, so its WME
is removed from the matcher although the claim says it must stay alive. -/
theorem removeTokens_deletes_foreign_justifications :
    withdrawTokenJustifications "R" ⟨1, []⟩
        [Justif.axiomatic, Justif.prod "R" ⟨1, []⟩, Justif.prod "S" ⟨1, []⟩,
          Justif.prod "R" ⟨2, []⟩] =
      [Justif.prod "R" ⟨2, []⟩] ∧
    [Justif.prod "R" ⟨2, []⟩] ≠
      [Justif.axiomatic, Justif.prod "S" ⟨1, []⟩, Justif.prod "R" ⟨2, []⟩] ∧
    withdrawTokenJustifications "R" ⟨1, []⟩
      [Justif.axiomatic, Justif.prod "R" ⟨1, []⟩] = [] ∧
    (processToken "R" ⟨1, []⟩
        ⟨[⟨"a", "b", "c", none⟩], [0],
          [⟨0, [Justif.axiomatic, Justif.prod "R" ⟨1, []⟩]⟩]⟩).wm = [] := by
  refine ⟨rfl, by decide, rfl, rfl⟩

/-- C4: the claim says the crisp value after defuzzification is the mean
of the two inverse-sigmoid contributions.  The source's
computeValueForFuzzyMembershipValue (index.ts lines 94-96) returns 0 for
every input, while the claimed formula at the kind with sigmoids
(a, c) = (1, 0) and (-1, 1) and degrees 1/2 and 1/2 yields 1/2. -/
theorem defuzzification_stub_returns_zero :
    (∀ (v : DeclaredFuzzyVariable) (fv : String) (mu : ℝ),
        v.computeValueForFuzzyMembershipValue fv mu = 0) ∧
    specCrispValue ⟨"big", 1, 0⟩ ⟨"small", -1, 1⟩ (1 / 2) (1 / 2) = 1 / 2 ∧
    (0 : ℝ) ≠ 1 / 2 := by
  refine ⟨fun v fv mu => rfl, ?_, by norm_num⟩
  unfold specCrispValue specInverseSigmoid
  have h : (1 : ℝ) / (1 / 2) - 1 = 1 := by norm_num
  simp only [h, Real.log_one]
  norm_num

/-- C5: the claim says the multiplicative system's disjunction is
1 - (1 - mu1)(1 - mu2); the source (index.ts line 129) returns 0 for
every input (its own comment records the intended inclusion-exclusion
value), so degree propagation sets the WME's degree to 0, not 3/4, when
both tokens have degree 1/2.  The conjunction does return the product. -/
theorem multiplicative_disjunction_returns_zero :
    (∀ l : List ℚ, FuzzySystem.multiplicative.computeConjunction l = l.prod) ∧
    (∀ l : List ℚ, FuzzySystem.multiplicative.computeDisjunction l = 0) ∧
    FuzzySystem.multiplicative.computeDisjunction [1 / 2, 1 / 2] = 0 ∧
    1 - (1 - (1 : ℚ) / 2) * (1 - 1 / 2) = 3 / 4 ∧
    (0 : ℚ) ≠ 3 / 4 := by
  refine ⟨fun l => ?_, fun l => rfl, rfl, by norm_num, by norm_num⟩
  rw [List.prod_eq_foldl]
  rfl

/-- C7 counterexample: the claim says run() executes its cycle body at
most MAX_CYCLES = 100 times; with a conflict item selected at every cycle
the body executes 101 times, because the do/while post-test
cycle++ <= MAX_CYCLES runs the body once more after the test at 100. -/
theorem run_executes_101_cycles_counterexample :
    (runDriver none (fun _ => some ⟨"r", [], [], false⟩) 1 emptyStore).2 = 101 ∧
    ¬(101 ≤ MAX_CYCLES) := by
  exact ⟨rfl, by decide⟩

/-- C7 (amended): the run() loop always terminates after at most
MAX_CYCLES + 1 = 101 executions of its body, and it stops within the
cycle in which the conflict set is empty or the resolver selects
nothing. -/
theorem run_cycle_bound :
    (∀ (fsys : Option FuzzySystem) (oracle : Nat → Option FireInput)
        (fuel cyc : Nat) (s : Store), (runAux fsys oracle fuel cyc s).2 ≤ fuel + 1) ∧
    (∀ (fsys : Option FuzzySystem) (oracle : Nat → Option FireInput) (s : Store),
        (runDriver fsys oracle 1 s).2 ≤ MAX_CYCLES + 1) ∧
    (∀ (fsys : Option FuzzySystem) (oracle : Nat → Option FireInput)
        (fuel cyc : Nat) (s : Store),
        oracle cyc = none → runAux fsys oracle fuel cyc s = (s, 1)) := by
  have hbound : ∀ (fsys : Option FuzzySystem) (oracle : Nat → Option FireInput)
      (fuel cyc : Nat) (s : Store), (runAux fsys oracle fuel cyc s).2 ≤ fuel + 1 := by
    intro fsys oracle fuel
    induction fuel with
    | zero =>
      intro cyc s
      unfold runAux
      cases oracle cyc <;> simp
    | succ f ih =>
      intro cyc s
      unfold runAux
      cases oracle cyc with
      | none => simp
      | some inp =>
        simpa using Nat.succ_le_succ (ih (cyc + 1) (cycleBody fsys inp s))
  refine ⟨hbound, fun fsys oracle s => ?_, fun fsys oracle fuel cyc s h => ?_⟩
  · exact hbound fsys oracle (MAX_CYCLES + 1 - 1) 1 s
  · unfold runAux
    rw [h]

/-- C7 witness: the bound and the early stop at a concrete input. -/
theorem run_cycle_bound_witness :
    runAux none (fun _ => none) 5 1 emptyStore = (emptyStore, 1) ∧
    (runDriver none (fun _ => none) 1 emptyStore).2 ≤ MAX_CYCLES + 1 :=
  ⟨run_cycle_bound.2.2 none (fun _ => none) 5 1 emptyStore rfl,
   run_cycle_bound.2.1 none (fun _ => none) emptyStore⟩

/-- C9: tokenToMu (index.ts lines 469-475) yields a defined degree iff the
token has at least one FuzzyWME member and a fuzzy system was selected via
the fuzzy system directive; with no fuzzy system the result is undefined
even when fuzzy members are present. -/
theorem tokenToMu_defined_iff :
    ∀ (fsys : Option FuzzySystem) (s : Store) (t : Token),
      ((tokenToMu fsys s t).isSome ↔
        (t.members.filterMap fun uid => (s.heap.getD uid dfltWME).mu) ≠ [] ∧
          fsys.isSome = true) ∧
      tokenToMu none s t = none := by
  intro fsys s t
  constructor
  · cases fsys with
    | none => simp [tokenToMu]
    | some sys =>
      by_cases h : (t.members.filterMap fun uid => (s.heap.getD uid dfltWME).mu) = []
      · simp [tokenToMu, h]
      · simp [tokenToMu, h, List.isEmpty_iff]
  · rfl

/-- C10: every attribute registered by the fuzzy attr directive is exempt
from schema checking: checkWMEAgainstSchema (index.ts lines 206-220)
returns without any warning for a WME whose attr is in the fuzzy-attribute
list, whatever the registered schema patterns are. -/
theorem fuzzy_attr_exempt_from_schema :
    ∀ (fas : List String) (v : String)
      (pats : List (String × List PatternsForAttribute)) (w : WMEData),
      w.f1 = v ∨ w.f1 ∈ fas →
      checkWMEAgainstSchema (registerFuzzyAttr fas v) pats w = [] := by
  intro fas v pats w h
  have hm : w.f1 ∈ registerFuzzyAttr fas v := by
    rcases h with h | h
    · simp [registerFuzzyAttr, h]
    · simp [registerFuzzyAttr, h]
  unfold checkWMEAgainstSchema
  simp [hm]

/-- C10 witness: a fuzzy attribute with schema checking active and no
registered pattern produces no warning. -/
theorem fuzzy_attr_exempt_from_schema_witness :
    checkWMEAgainstSchema (registerFuzzyAttr [] "tip") [] ⟨"b1", "tip", "big", none⟩ = [] :=
  fuzzy_attr_exempt_from_schema [] "tip" [] ⟨"b1", "tip", "big", none⟩ (Or.inl rfl)

/-- C8: when the found WME's record has no axiomatic justification, the
interactive retract command refuses: the state is returned unchanged and
run() is not invoked (index.ts lines 673-676). -/
theorem interactiveRetract_refuses_without_axiomatic :
    ∀ (fsys : Option FuzzySystem) (oracle : Nat → Option FireInput) (cyc : Nat)
      (s : Store) (q0 q1 q2 : String) (uid : Nat) (r : WMERecord),
      s.wm.find? (wmeFieldsMatch s q0 q1 q2) = some uid →
      s.justifications.find? (fun rr => rr.wme == uid) = some r →
      r.justifications.find? (fun jj => !jj.isProd) = none →
      interactiveRetract fsys oracle cyc s q0 q1 q2 = (s, false) := by
  intro fsys oracle cyc s q0 q1 q2 uid r h1 h2 h3
  unfold interactiveRetract
  rw [h1]
  dsimp only
  rw [h2]
  dsimp only
  rw [h3]

/-- C8 witness: retracting a WME justified only by a production is
refused and changes nothing. -/
theorem interactiveRetract_refuses_without_axiomatic_witness :
    interactiveRetract none (fun _ => none) 1
        ⟨[⟨"a", "b", "c", none⟩], [0], [⟨0, [Justif.prod "R" ⟨1, []⟩]⟩]⟩ "a" "b" "c" =
      (⟨[⟨"a", "b", "c", none⟩], [0], [⟨0, [Justif.prod "R" ⟨1, []⟩]⟩]⟩, false) :=
  interactiveRetract_refuses_without_axiomatic none (fun _ => none) 1
    ⟨[⟨"a", "b", "c", none⟩], [0], [⟨0, [Justif.prod "R" ⟨1, []⟩]⟩]⟩ "a" "b" "c" 0
    ⟨0, [Justif.prod "R" ⟨1, []⟩]⟩ rfl rfl rfl

lemma smAux_mono (strata : List (List String)) (conflicts : List CItem) :
    ∀ fuel s, s ≤ (stratifiedManualAux strata conflicts fuel s).2 := by
  intro fuel
  induction fuel with
  | zero =>
    intro s
    cases hf : conflicts.find? (stratumHit strata s) <;>
      simp [stratifiedManualAux, hf]
  | succ f ih =>
    intro s
    cases hf : conflicts.find? (stratumHit strata s) with
    | some c => simp [stratifiedManualAux, hf]
    | none =>
      simp only [stratifiedManualAux, hf]
      split
      · exact Nat.le_trans (Nat.le_succ s) (ih (s + 1))
      · simp

lemma smAux_found (strata : List (List String)) (conflicts : List CItem) :
    ∀ fuel s c, (stratifiedManualAux strata conflicts fuel s).1 = some c →
      conflicts.find? (stratumHit strata (stratifiedManualAux strata conflicts fuel s).2) =
        some c := by
  intro fuel
  induction fuel with
  | zero =>
    intro s c h
    cases hf : conflicts.find? (stratumHit strata s) with
    | some c2 =>
      simp only [stratifiedManualAux, hf] at h ⊢
      simp at h
      simp [h]
    | none =>
      simp only [stratifiedManualAux, hf] at h
      simp at h
  | succ f ih =>
    intro s c h
    cases hf : conflicts.find? (stratumHit strata s) with
    | some c2 =>
      simp only [stratifiedManualAux, hf] at h ⊢
      simp at h
      simp [h]
    | none =>
      simp only [stratifiedManualAux, hf] at h ⊢
      split at h
      · rename_i hlt
        rw [if_pos hlt]
        exact ih (s + 1) c h
      · simp at h

lemma smAux_skipped (strata : List (List String)) (conflicts : List CItem) :
    ∀ fuel s c, (stratifiedManualAux strata conflicts fuel s).1 = some c →
      ∀ t, s ≤ t → t < (stratifiedManualAux strata conflicts fuel s).2 →
        conflicts.find? (stratumHit strata t) = none := by
  intro fuel
  induction fuel with
  | zero =>
    intro s c h t hst hts
    cases hf : conflicts.find? (stratumHit strata s) with
    | some c2 =>
      simp only [stratifiedManualAux, hf] at hts
      omega
    | none =>
      simp only [stratifiedManualAux, hf] at h
      simp at h
  | succ f ih =>
    intro s c h t hst hts
    cases hf : conflicts.find? (stratumHit strata s) with
    | some c2 =>
      simp only [stratifiedManualAux, hf] at hts
      omega
    | none =>
      simp only [stratifiedManualAux, hf] at h hts
      split at h
      · rename_i hlt
        rw [if_pos hlt] at hts
        rcases Nat.eq_or_lt_of_le hst with heq | hlt2
        · rw [← heq]
          exact hf
        · exact ih (s + 1) c h t hlt2 hts
      · simp at h

lemma smAux_none (strata : List (List String)) (conflicts : List CItem) :
    ∀ fuel s, strata.length ≤ s + fuel →
      (stratifiedManualAux strata conflicts fuel s).1 = none → s < strata.length →
      (stratifiedManualAux strata conflicts fuel s).2 = strata.length := by
  intro fuel
  induction fuel with
  | zero =>
    intro s hfuel _ hs
    omega
  | succ f ih =>
    intro s hfuel h hs
    cases hf : conflicts.find? (stratumHit strata s) with
    | some c2 =>
      simp [stratifiedManualAux, hf] at h
    | none =>
      simp only [stratifiedManualAux, hf] at h ⊢
      split at h
      · rename_i hlt
        rw [if_pos hlt]
        exact ih (s + 1) (by omega) h hlt
      · rename_i hge
        rw [if_neg hge]
        simp
        omega

lemma smAux_in_stratum (strata : List (List String)) (conflicts : List CItem) :
    ∀ fuel s c, (stratifiedManualAux strata conflicts fuel s).1 = some c →
      c.rhs ∈ strata.getD (stratifiedManualAux strata conflicts fuel s).2 [] ∧
      (stratifiedManualAux strata conflicts fuel s).2 < strata.length := by
  have hmem : ∀ s c, conflicts.find? (stratumHit strata s) = some c →
      c.rhs ∈ strata.getD s [] ∧ s < strata.length := by
    intro s c hf
    have hp := List.find?_some hf
    have hmem2 : c.rhs ∈ strata.getD s [] := by
      simpa [stratumHit] using hp
    refine ⟨hmem2, ?_⟩
    by_contra hge
    rw [List.getD_eq_default] at hmem2
    · simp at hmem2
    · omega
  intro fuel
  induction fuel with
  | zero =>
    intro s c h
    cases hf : conflicts.find? (stratumHit strata s) with
    | some c2 =>
      simp only [stratifiedManualAux, hf] at h ⊢
      simp at h
      subst h
      exact hmem s c2 hf
    | none =>
      simp only [stratifiedManualAux, hf] at h
      simp at h
  | succ f ih =>
    intro s c h
    cases hf : conflicts.find? (stratumHit strata s) with
    | some c2 =>
      simp only [stratifiedManualAux, hf] at h ⊢
      simp at h
      subst h
      exact hmem s c2 hf
    | none =>
      simp only [stratifiedManualAux, hf] at h ⊢
      split at h
      · rename_i hlt
        rw [if_pos hlt]
        exact ih (s + 1) c h
      · simp at h

/-- C3: under stratified-manual selection the cursor starts at 0 and never
decreases; a call returns the first conflict item (in conflict-set order)
whose production is in the stratum at which the cursor stops, having found
no item in any stratum skipped on the way; with no item in any remaining
stratum the call returns none with the cursor at the stratum count; and a
selected item never belongs to a stratum abandoned before the call when
production names are unique across strata. -/
theorem stratifiedManual_cursor_spec :
    ∀ (strata : List (List String)) (conflicts : List CItem) (s : Nat),
      currentStratumInit = 0 ∧
      s ≤ (stratifiedManual strata conflicts s).2 ∧
      (∀ c, (stratifiedManual strata conflicts s).1 = some c →
        conflicts.find? (stratumHit strata (stratifiedManual strata conflicts s).2) = some c ∧
        (stratifiedManual strata conflicts s).2 < strata.length ∧
        (∀ t, s ≤ t → t < (stratifiedManual strata conflicts s).2 →
          conflicts.find? (stratumHit strata t) = none) ∧
        (∀ t, t < s →
          (∀ (r : String) (i j : Nat), i < strata.length → j < strata.length →
            r ∈ strata.getD i [] → r ∈ strata.getD j [] → i = j) →
          c.rhs ∉ strata.getD t [])) ∧
      ((stratifiedManual strata conflicts s).1 = none → s < strata.length →
        (stratifiedManual strata conflicts s).2 = strata.length) := by
  intro strata conflicts s
  simp only [stratifiedManual]
  refine ⟨rfl, smAux_mono strata conflicts _ s, fun c h => ?_, fun h hs =>
    smAux_none strata conflicts _ s (by omega) h hs⟩
  refine ⟨smAux_found strata conflicts _ s c h,
    (smAux_in_stratum strata conflicts _ s c h).2,
    smAux_skipped strata conflicts _ s c h, fun t ht huniq hmem => ?_⟩
  have h2 := smAux_in_stratum strata conflicts (strata.length - s) s c h
  have hmono := smAux_mono strata conflicts (strata.length - s) s
  have ht2 : t < strata.length := by omega
  have heq := huniq c.rhs t _ ht2 h2.2 hmem h2.1
  omega

/-- C3 witness: with strata A; B and a single conflict item for B, the
call from cursor 0 selects B's item at cursor 1 after skipping stratum 0. -/
theorem stratifiedManual_cursor_spec_witness :
    List.find? (stratumHit [["A"], ["B"]] (stratifiedManual [["A"], ["B"]] [⟨"B", 0⟩] 0).2)
        [⟨"B", 0⟩] = some ⟨"B", 0⟩ ∧
    (stratifiedManual [["A"], ["B"]] [⟨"B", 0⟩] 0).2 < 2 ∧
    List.find? (stratumHit [["A"], ["B"]] 0) [⟨"B", 0⟩] = none :=
  ⟨(((stratifiedManual_cursor_spec [["A"], ["B"]] [⟨"B", 0⟩] 0).2.2.1 ⟨"B", 0⟩ rfl)).1,
   (((stratifiedManual_cursor_spec [["A"], ["B"]] [⟨"B", 0⟩] 0).2.2.1 ⟨"B", 0⟩ rfl)).2.1,
   (((stratifiedManual_cursor_spec [["A"], ["B"]] [⟨"B", 0⟩] 0).2.2.1 ⟨"B", 0⟩ rfl)).2.2.1 0
     (by decide) (by decide)⟩

lemma foldl_erase_mem (xs : List Nat) :
    ∀ l : List Nat, l.Nodup → ∀ u, (u ∈ xs.foldl List.erase l ↔ u ∈ l ∧ u ∉ xs) := by
  induction xs with
  | nil => intro l _ u; simp
  | cons x xs ih =>
    intro l hl u
    have h1 := ih (l.erase x) (hl.erase x) u
    simp only [List.foldl_cons] at *
    rw [h1, List.Nodup.mem_erase_iff hl]
    simp only [List.mem_cons]
    constructor
    · rintro ⟨⟨hne, hm⟩, hnx⟩
      exact ⟨hm, by tauto⟩
    · rintro ⟨hm, hnx⟩
      refine ⟨⟨?_, hm⟩, ?_⟩ <;> tauto

lemma foldl_erase_nodup (xs : List Nat) :
    ∀ l : List Nat, l.Nodup → (xs.foldl List.erase l).Nodup := by
  induction xs with
  | nil => intro l hl; simpa using hl
  | cons x xs ih =>
    intro l hl
    simp only [List.foldl_cons]
    exact ih (l.erase x) (hl.erase x)

lemma exists_wme_mem_iff (l : List WMERecord) (u : Nat) :
    (∃ r ∈ l, r.wme = u) ↔ u ∈ l.map (·.wme) := by
  simp [List.mem_map]

lemma wme_injOn_of_nodup {l : List WMERecord} (h : (l.map (·.wme)).Nodup) :
    ∀ r ∈ l, ∀ r2 ∈ l, r.wme = r2.wme → r = r2 := by
  intro r hr r2 hr2 heq
  exact List.inj_on_of_nodup_map h hr hr2 heq

lemma addWMEs_spec :
    ∀ (cands : List WMEData) (s : Store), (∀ u ∈ s.wm, u < s.heap.length) →
      (addWMEs s cands).1.justifications = s.justifications ∧
      (addWMEs s cands).1.wm = s.wm ++ (addWMEs s cands).2.1 ∧
      (addWMEs s cands).1.heap.length = s.heap.length + (addWMEs s cands).2.1.length ∧
      (addWMEs s cands).2.1 = List.range' s.heap.length (addWMEs s cands).2.1.length ∧
      (∀ u ∈ (addWMEs s cands).1.wm, u < (addWMEs s cands).1.heap.length) := by
  intro cands
  induction cands with
  | nil =>
    intro s hb
    simp [addWMEs]
    exact hb
  | cons c rest ih =>
    intro s hb
    cases hf : s.wm.find? (fun uid => sameFields (s.heap.getD uid dfltWME) c) with
    | some uid =>
      simp only [addWMEs, hf]
      exact ih s hb
    | none =>
      simp only [addWMEs, hf]
      set s1 : Store :=
        { s with heap := s.heap ++ [c], wm := s.wm ++ [s.heap.length] } with hs1
      have hb1 : ∀ u ∈ s1.wm, u < s1.heap.length := by
        intro u hu
        simp only [hs1, List.mem_append, List.mem_singleton, List.length_append,
          List.length_singleton] at hu ⊢
        rcases hu with hu | hu
        · have := hb u hu
          omega
        · omega
      obtain ⟨ihJ, ihW, ihL, ihR, ihB⟩ := ih s1 hb1
      have hlen1 : s1.heap.length = s.heap.length + 1 := by
        simp [hs1]
      refine ⟨ihJ, ?_, ?_, ?_, ihB⟩
      · rw [ihW]
        simp [hs1, List.append_assoc]
      · rw [ihL, hlen1]
        simp [List.length_cons]
        omega
      · have : (s.heap.length :: (addWMEs s1 rest).2.1) =
            s.heap.length :: List.range' (s.heap.length + 1) (addWMEs s1 rest).2.1.length := by
          rw [← hlen1, ← ihR]
        rw [this]
        simp [List.length_cons, List.range'_succ]

lemma range'_facts (H n : Nat) :
    (List.range' H n).Nodup ∧ (∀ u ∈ List.range' H n, H ≤ u ∧ u < H + n) := by
  refine ⟨List.nodup_range' H n 1 (by norm_num), fun u hu => ?_⟩
  rw [List.mem_range'_1] at hu
  exact hu

lemma inv_add_records (s : Store) (cands : List WMEData) (mkJ : Nat → List Justif)
    (hmk : ∀ u, mkJ u ≠ []) (hInv : InvStore s) :
    InvStore { (addWMEs s cands).1 with
      justifications := (addWMEs s cands).1.justifications ++
        ((addWMEs s cands).2.1).map fun uid => ⟨uid, mkJ uid⟩ } := by
  obtain ⟨h1, h2, h3, h4, h5⟩ := hInv
  obtain ⟨aJ, aW, aL, aR, aB⟩ := addWMEs_spec cands s h5
  set a := (addWMEs s cands).2.1 with ha
  have haN : a.Nodup := by
    rw [aR]
    exact (range'_facts _ _).1
  have haB : ∀ u ∈ a, s.heap.length ≤ u := by
    intro u hu
    rw [aR] at hu
    exact ((range'_facts _ _).2 u hu).1
  have hmapnew : (a.map fun uid => (⟨uid, mkJ uid⟩ : WMERecord)).map (·.wme) = a := by
    rw [List.map_map]
    show List.map (fun u => u) a = a
    simp
  refine ⟨?_, ?_, ?_, ?_, ?_⟩
  · intro uid
    simp only [aW, aJ, List.mem_append]
    constructor
    · rintro (hu | hu)
      · obtain ⟨r, hr, hw⟩ := (h1 uid).1 hu
        exact ⟨r, Or.inl hr, hw⟩
      · refine ⟨⟨uid, mkJ uid⟩, Or.inr ?_, rfl⟩
        rw [List.mem_map]
        exact ⟨uid, hu, rfl⟩
    · rintro ⟨r, hr | hr, hw⟩
      · exact Or.inl ((h1 uid).2 ⟨r, hr, hw⟩)
      · right
        rw [List.mem_map] at hr
        obtain ⟨u, hu, hru⟩ := hr
        rw [← hw, ← hru]
        exact hu
  · intro r hr
    simp only [List.mem_append] at hr
    rcases hr with hr | hr
    · exact h2 r (aJ ▸ hr)
    · rw [List.mem_map] at hr
      obtain ⟨u, _, hu⟩ := hr
      rw [← hu]
      exact hmk u
  · rw [aW]
    refine List.Nodup.append h3 haN ?_
    rw [List.disjoint_left]
    intro u hu hua
    have := h5 u hu
    have := haB u hua
    omega
  · simp only [List.map_append, hmapnew, aJ]
    refine List.Nodup.append h4 haN ?_
    rw [List.disjoint_left]
    intro u hu hua
    rw [← exists_wme_mem_iff] at hu
    rw [← h1 u] at hu
    have := h5 u hu
    have := haB u hua
    omega
  · exact aB

lemma inv_to_mid (s : Store) (h : InvStore s) : MidInv s := by
  obtain ⟨h1, h2, h3, h4, h5⟩ := h
  refine ⟨fun uid => ?_, h3, h4, h5⟩
  rw [h1 uid]
  constructor
  · rintro ⟨r, hr, hw⟩
    exact ⟨r, hr, hw, h2 r hr⟩
  · rintro ⟨r, hr, hw, _⟩
    exact ⟨r, hr, hw⟩

lemma mid_prune (s : Store) (h : MidInv s) :
    InvStore { s with
      justifications := s.justifications.filter fun r => !r.justifications.isEmpty } := by
  obtain ⟨m1, m3, m4, m5⟩ := h
  refine ⟨fun uid => ?_, ?_, m3, ?_, m5⟩
  · rw [m1 uid]
    simp only [List.mem_filter, Bool.not_eq_true', List.isEmpty_eq_false]
    constructor
    · rintro ⟨r, hr, hw, hne⟩
      exact ⟨r, ⟨hr, by simpa using hne⟩, hw⟩
    · rintro ⟨r, ⟨hr, hne⟩, hw⟩
      exact ⟨r, hr, hw, by simpa using hne⟩
  · intro r hr
    rw [List.mem_filter] at hr
    simpa using hr.2
  · exact List.Nodup.sublist (List.Sublist.map _ (List.filter_sublist _)) m4

lemma recordHolds_empty (rhs : String) (t : Token) (r : WMERecord)
    (h : r.justifications = []) : recordHolds rhs t r = false := by
  simp [recordHolds, h]

lemma midInv_processToken (rhs : String) (t : Token) (s : Store) (h : MidInv s) :
    MidInv (processToken rhs t s) := by
  obtain ⟨m1, m3, m4, m5⟩ := h
  have hinj := wme_injOn_of_nodup m4
  set wdr := fun (r : WMERecord) => withdrawTokenJustifications rhs t r.justifications with hwdr
  set P := fun (r : WMERecord) => recordHolds rhs t r && (wdr r).isEmpty with hP
  set upd := fun (r : WMERecord) =>
    if recordHolds rhs t r then { r with justifications := wdr r } else r with hupd
  have hupdw : ∀ r : WMERecord, (upd r).wme = r.wme := by
    intro r
    simp only [hupd]
    split <;> rfl
  have hmapw : (s.justifications.map upd).map (·.wme) = s.justifications.map (·.wme) := by
    rw [List.map_map]
    exact List.map_congr_left fun r _ => hupdw r
  have hempt : ∀ u, u ∈ (s.justifications.filter P).map (·.wme) ↔
      ∃ r ∈ s.justifications, P r = true ∧ r.wme = u := by
    intro u
    simp [List.mem_map, List.mem_filter]
    tauto
  have hwm' : ∀ u, u ∈ (processToken rhs t s).wm ↔
      u ∈ s.wm ∧ u ∉ (s.justifications.filter P).map (·.wme) := by
    intro u
    exact foldl_erase_mem _ s.wm m3 u
  refine ⟨fun uid => ?_, foldl_erase_nodup _ s.wm m3, ?_, ?_⟩
  · rw [hwm' uid]
    have hrhs : (∃ r ∈ (processToken rhs t s).justifications, r.wme = uid ∧
        r.justifications ≠ []) ↔
        ∃ r ∈ s.justifications, r.wme = uid ∧ (upd r).justifications ≠ [] := by
      show (∃ r ∈ s.justifications.map upd, r.wme = uid ∧ r.justifications ≠ []) ↔ _
      simp only [List.mem_map]
      constructor
      · rintro ⟨r2, ⟨r, hr, hru⟩, hw, hne⟩
        exact ⟨r, hr, by rw [← hru, hupdw r] at hw; exact hw, by rw [hru]; exact hne⟩
      · rintro ⟨r, hr, hw, hne⟩
        exact ⟨upd r, ⟨r, hr, rfl⟩, by rw [hupdw r]; exact hw, hne⟩
    rw [hrhs]
    constructor
    · rintro ⟨hwm, hne⟩
      obtain ⟨r, hr, hw, hjne⟩ := (m1 uid).1 hwm
      refine ⟨r, hr, hw, ?_⟩
      intro hcon
      simp only [hupd] at hcon
      by_cases hh : recordHolds rhs t r = true
      · rw [if_pos hh] at hcon
        simp only at hcon
        apply hne
        rw [hempt uid]
        refine ⟨r, hr, ?_, hw⟩
        simp [hP, hh, hcon]
      · rw [if_neg (by simpa using hh)] at hcon
        exact hjne hcon
    · rintro ⟨r, hr, hw, hne⟩
      have hjne : r.justifications ≠ [] := by
        intro hcon
        apply hne
        simp only [hupd, recordHolds_empty rhs t r hcon, if_neg]
        exact hcon
      refine ⟨(m1 uid).2 ⟨r, hr, hw, hjne⟩, ?_⟩
      intro hcon
      rw [hempt uid] at hcon
      obtain ⟨r2, hr2, hPr2, hw2⟩ := hcon
      have : r2 = r := hinj r2 hr2 r hr (by rw [hw2, hw])
      subst this
      simp only [hP, Bool.and_eq_true] at hPr2
      apply hne
      simp only [hupd, if_pos hPr2.1]
      simpa using hPr2.2
  · show ((s.justifications.map upd).map (·.wme)).Nodup
    rw [hmapw]
    exact m4
  · intro uid hu
    rw [hwm' uid] at hu
    exact m5 uid hu.1

lemma updateFirst_map_wme (q : WMERecord → Bool) (f : WMERecord → WMERecord)
    (hf : ∀ x, (f x).wme = x.wme) :
    ∀ l : List WMERecord, (updateFirst q f l).map (·.wme) = l.map (·.wme) := by
  intro l
  induction l with
  | nil => rfl
  | cons x xs ih =>
    unfold updateFirst
    split
    · simp [hf x]
    · simp [ih]

lemma mem_updateFirst (q : α → Bool) (f : α → α) :
    ∀ (l : List α) (y : α), y ∈ updateFirst q f l → y ∈ l ∨ ∃ x ∈ l, y = f x := by
  intro l
  induction l with
  | nil => intro y hy; simp [updateFirst] at hy
  | cons x xs ih =>
    intro y hy
    unfold updateFirst at hy
    split at hy
    · rcases List.mem_cons.mp hy with hy | hy
      · exact Or.inr ⟨x, List.mem_cons_self x xs, hy⟩
      · exact Or.inl (List.mem_cons_of_mem x hy)
    · rcases List.mem_cons.mp hy with hy | hy
      · exact Or.inl (by rw [hy]; exact List.mem_cons_self x xs)
      · rcases ih y hy with hy2 | ⟨x2, hx2, hy2⟩
        · exact Or.inl (List.mem_cons_of_mem x hy2)
        · exact Or.inr ⟨x2, List.mem_cons_of_mem x hx2, hy2⟩

lemma inv_updateFirst (s : Store) (q : WMERecord → Bool) (f : WMERecord → WMERecord)
    (hfw : ∀ x, (f x).wme = x.wme)
    (hfne : ∀ x ∈ s.justifications, (f x).justifications ≠ [])
    (h : InvStore s) :
    InvStore { s with justifications := updateFirst q f s.justifications } := by
  obtain ⟨h1, h2, h3, h4, h5⟩ := h
  have hmap := updateFirst_map_wme q f hfw s.justifications
  refine ⟨fun u => ?_, ?_, h3, ?_, h5⟩
  · rw [exists_wme_mem_iff, hmap, ← exists_wme_mem_iff]
    exact h1 u
  · intro r hr
    rcases mem_updateFirst q f s.justifications r hr with hr2 | ⟨x, hx, hr2⟩
    · exact h2 r hr2
    · rw [hr2]
      exact hfne x hx
  · rw [hmap]
    exact h4

lemma inv_set_heap (heap : List WMEData) (wm : List Nat) (justs : List WMERecord)
    (i : Nat) (d : WMEData) (h : InvStore ⟨heap, wm, justs⟩) :
    InvStore ⟨heap.set i d, wm, justs⟩ := by
  obtain ⟨h1, h2, h3, h4, h5⟩ := h
  refine ⟨h1, h2, h3, h4, ?_⟩
  intro u hu
  rw [List.length_set]
  exact h5 u hu

lemma inv_erase_record (s : Store) (uid : Nat) (r : WMERecord)
    (hmem : r ∈ s.justifications) (hw : r.wme = uid) (h : InvStore s) :
    InvStore { s with wm := s.wm.erase uid, justifications := s.justifications.erase r } := by
  obtain ⟨h1, h2, h3, h4, h5⟩ := h
  have hinj := wme_injOn_of_nodup h4
  have hjnd : s.justifications.Nodup := h4.of_map
  refine ⟨fun u => ?_, ?_, h3.erase uid, ?_, ?_⟩
  · rw [List.Nodup.mem_erase_iff h3]
    constructor
    · rintro ⟨hne, hu⟩
      obtain ⟨r2, hr2, hw2⟩ := (h1 u).1 hu
      refine ⟨r2, ?_, hw2⟩
      rw [List.Nodup.mem_erase_iff hjnd]
      refine ⟨fun hcon => hne ?_, hr2⟩
      rw [← hw2, hcon, hw]
    · rintro ⟨r2, hr2, hw2⟩
      rw [List.Nodup.mem_erase_iff hjnd] at hr2
      obtain ⟨hne2, hr2m⟩ := hr2
      refine ⟨?_, (h1 u).2 ⟨r2, hr2m, hw2⟩⟩
      intro hcon
      apply hne2
      apply hinj r2 hr2m r hmem
      rw [hw2, hcon, hw]
  · intro r2 hr2
    rw [List.Nodup.mem_erase_iff hjnd] at hr2
    exact h2 r2 hr2.2
  · exact List.Nodup.sublist (List.Sublist.map _ (List.erase_sublist r s.justifications)) h4
  · intro u hu
    rw [List.Nodup.mem_erase_iff h3] at hu
    exact h5 u hu.2

lemma inv_pushExisting (fsys : Option FuzzySystem) (rhs : String) (t : Token)
    (s : Store) (uid : Nat) (h : InvStore s) :
    InvStore (pushExistingJustification fsys rhs t s uid) := by
  cases hfind : s.justifications.find? (fun r => r.wme == uid) with
  | none =>
    simp only [pushExistingJustification, hfind]
    exact h
  | some r =>
    have hs1 : InvStore (Store.mk s.heap s.wm
        (updateFirst (fun rr => rr.wme == uid)
          (fun rr => WMERecord.mk rr.wme (rr.justifications ++ [Justif.prod rhs t]))
          s.justifications)) := by
      refine inv_updateFirst s _ _ (fun x => rfl) (fun x _ => ?_) h
      simp
    simp only [pushExistingJustification, hfind]
    cases fsys with
    | none => exact hs1
    | some sys =>
      cases hmu : (s.heap.getD uid dfltWME).mu with
      | none =>
        simp only [hmu]
        exact hs1
      | some q =>
        simp only [hmu]
        exact inv_set_heap _ _ _ _ _ hs1

lemma inv_assertFact (s : Store) (cands : List WMEData) (h : InvStore s) :
    InvStore (assertFact s cands) :=
  inv_add_records s cands (fun _ => [Justif.axiomatic]) (fun _ => by simp) h

lemma inv_foldl_push (fsys : Option FuzzySystem) (rhs : String) (t : Token) :
    ∀ (es : List Nat) (s : Store), InvStore s →
      InvStore (es.foldl (pushExistingJustification fsys rhs t) s) := by
  intro es
  induction es with
  | nil => intro s h; exact h
  | cons e es ih =>
    intro s h
    exact ih _ (inv_pushExisting fsys rhs t s e h)

lemma inv_assertForToken (fsys : Option FuzzySystem) (rhs : String) (t : Token)
    (cands : List CandSpec) (s : Store) (h : InvStore s) :
    InvStore (assertForToken fsys rhs t cands s) := by
  unfold assertForToken
  exact inv_foldl_push fsys rhs t _ _
    (inv_add_records s _ (fun _ => [Justif.prod rhs t]) (fun _ => by simp) h)

lemma inv_cycleBody (fsys : Option FuzzySystem) (inp : FireInput) (s : Store)
    (h : InvStore s) : InvStore (cycleBody fsys inp s) := by
  have hmidfold : ∀ (toks : List Token) (s : Store), MidInv s →
      MidInv (toks.foldl (fun s t => processToken inp.rhs t s) s) := by
    intro toks
    induction toks with
    | nil => intro s h2; exact h2
    | cons t2 toks ih =>
      intro s h2
      exact ih _ (midInv_processToken inp.rhs t2 s h2)
  have haddfold : ∀ (pairs : List (Token × List CandSpec)) (s : Store), InvStore s →
      InvStore (pairs.foldl (fun s tc => assertForToken fsys inp.rhs tc.1 tc.2 s) s) := by
    intro pairs
    induction pairs with
    | nil => intro s h2; exact h2
    | cons p pairs ih =>
      intro s h2
      exact ih _ (inv_assertForToken fsys inp.rhs p.1 p.2 s h2)
  have hpruned := mid_prune _ (hmidfold inp.toRemove s (inv_to_mid s h))
  unfold cycleBody
  split
  · exact haddfold inp.toAdd _ hpruned
  · exact hpruned

lemma inv_runAux (fsys : Option FuzzySystem) (oracle : Nat → Option FireInput) :
    ∀ (fuel cyc : Nat) (s : Store), InvStore s →
      InvStore (runAux fsys oracle fuel cyc s).1 := by
  intro fuel
  induction fuel with
  | zero =>
    intro cyc s h
    unfold runAux
    cases oracle cyc with
    | none => exact h
    | some inp => exact inv_cycleBody fsys inp s h
  | succ f ih =>
    intro cyc s h
    unfold runAux
    cases oracle cyc with
    | none => exact h
    | some inp => exact ih (cyc + 1) _ (inv_cycleBody fsys inp s h)

lemma inv_interactiveRetract (fsys : Option FuzzySystem) (oracle : Nat → Option FireInput)
    (cyc : Nat) (s : Store) (q0 q1 q2 : String) (h : InvStore s) :
    InvStore (interactiveRetract fsys oracle cyc s q0 q1 q2).1 := by
  cases h1 : s.wm.find? (wmeFieldsMatch s q0 q1 q2) with
  | none =>
    simp only [interactiveRetract, h1]
    exact h
  | some uid =>
    cases h2 : s.justifications.find? (fun r => r.wme == uid) with
    | none =>
      simp only [interactiveRetract, h1, h2]
      exact h
    | some r =>
      have hrmem : r ∈ s.justifications := List.mem_of_find?_eq_some h2
      have hrw : r.wme = uid := by
        have := List.find?_some h2
        simpa using this
      cases h3 : r.justifications.find? (fun jj => !jj.isProd) with
      | none =>
        simp only [interactiveRetract, h1, h2, h3]
        exact h
      | some aj =>
        simp only [interactiveRetract, h1, h2, h3]
        split
        · exact inv_runAux fsys oracle _ _ _ (inv_erase_record s uid r hrmem hrw h)
        · rename_i hnemp
          refine inv_runAux fsys oracle _ _ _
            (inv_updateFirst s _ _ (fun x => rfl) (fun x _ => ?_) h)
          simpa using hnemp

lemma invStore_empty : InvStore emptyStore := by
  refine ⟨fun uid => ?_, ?_, ?_, ?_, ?_⟩ <;> simp [emptyStore]

/-- C2: the TMS invariant - a justification record for a WME exists iff
the WME is in the matcher's working memory, every record holds at least
one justification, and removing the last justification removes the WME in
the same step - holds after load-time asserts, after every run() cycle,
after whole runs, and after an interactive retract. -/
theorem justification_invariant_preserved :
    ∀ s : Store, InvStore s →
      (∀ cands, InvStore (assertFact s cands)) ∧
      (∀ fsys inp, InvStore (cycleBody fsys inp s)) ∧
      (∀ fsys oracle fuel cyc, InvStore (runAux fsys oracle fuel cyc s).1) ∧
      (∀ fsys oracle cyc q0 q1 q2,
        InvStore (interactiveRetract fsys oracle cyc s q0 q1 q2).1) :=
  fun s h =>
    ⟨fun cands => inv_assertFact s cands h,
     fun fsys inp => inv_cycleBody fsys inp s h,
     fun fsys oracle fuel cyc => inv_runAux fsys oracle fuel cyc s h,
     fun fsys oracle cyc q0 q1 q2 => inv_interactiveRetract fsys oracle cyc s q0 q1 q2 h⟩

/-- C2 witness: the invariant holds for the empty store and is carried
through a load-time assert at a concrete fact. -/
theorem justification_invariant_preserved_witness :
    InvStore (assertFact emptyStore [⟨"a", "b", "c", none⟩]) :=
  (justification_invariant_preserved emptyStore invStore_empty).1 [⟨"a", "b", "c", none⟩]

/-- C6 (amended): asserting a fact that is already in working memory is a
no-op: the matcher reports the WME as existing, the assert branch touches
only added WMEs, so no second axiomatic justification appears. -/
theorem assertFact_idempotent :
    ∀ (s : Store) (c : WMEData), (∀ u ∈ s.wm, u < s.heap.length) →
      assertFact (assertFact s [c]) [c] = assertFact s [c] := by
  intro s c hb
  cases hf : s.wm.find? (fun uid => sameFields (s.heap.getD uid dfltWME) c) with
  | some uid =>
    have h1 : assertFact s [c] = s := by
      simp only [assertFact, addWMEs, hf]
      simp
    rw [h1]
    exact h1
  | none =>
    have hstep : assertFact s [c] = Store.mk (s.heap ++ [c]) (s.wm ++ [s.heap.length])
        (s.justifications ++ [⟨s.heap.length, [Justif.axiomatic]⟩]) := by
      simp only [assertFact, addWMEs, hf]
      simp [addWMEs]
    have hpred : sameFields ((s.heap ++ [c]).getD s.heap.length dfltWME) c = true := by
      have hget : (s.heap ++ [c]).getD s.heap.length dfltWME = c := by
        simp [List.getD]
      rw [hget]
      simp [sameFields]
    cases hf2 : (s.wm ++ [s.heap.length]).find?
        (fun uid => sameFields ((s.heap ++ [c]).getD uid dfltWME) c) with
    | none =>
      exfalso
      have := List.find?_eq_none.mp hf2 s.heap.length (by simp)
      simp only [hpred] at this
      exact this trivial
    | some u2 =>
      rw [hstep]
      simp only [assertFact, addWMEs]
      rw [hf2]
      simp

/-- C6 witness: the second assert of a concrete fact changes nothing. -/
theorem assertFact_idempotent_witness :
    assertFact (assertFact emptyStore [⟨"a", "b", "c", none⟩]) [⟨"a", "b", "c", none⟩] =
      assertFact emptyStore [⟨"a", "b", "c", none⟩] :=
  assertFact_idempotent emptyStore ⟨"a", "b", "c", none⟩ (by simp [emptyStore])

/-- C6 counterexample: after asserting (a b c) twice the single record
holds one justification, not two, and a single interactive retract (with
no productions, so run() finds no conflicts) leaves working memory empty
rather than leaving the WME live. -/
theorem assert_twice_single_justification_counterexample :
    ((assertFact (assertFact emptyStore [⟨"a", "b", "c", none⟩])
        [⟨"a", "b", "c", none⟩]).justifications.map
          fun r => r.justifications.length) = [1] ∧
    (1 : Nat) ≠ 2 ∧
    (interactiveRetract none (fun _ => none) 1
        (assertFact (assertFact emptyStore [⟨"a", "b", "c", none⟩])
          [⟨"a", "b", "c", none⟩]) "a" "b" "c").1.wm = [] :=
  ⟨rfl, by decide, rfl⟩
